import Mathlib

/-!
Shallow embedding of the sbrk-based memory allocator in `src/main.c`
(functions `get_free_block`, `malloc`, `free`, `calloc`, `realloc`),
together with proofs about the claims of its specification.

Modelling choices:
* Addresses are `Nat`.  `union header` (16-byte aligned) becomes the
  `Header` structure; `sizeof(header_t)` is the constant `HEADER_SIZE = 16`.
* The header memory is an association list `List (Nat × Header)` mapping a
  header address to its contents; a store writes through `setHeader` /
  `storeHeader`, a load is `lookupMem`.  Payload bytes live in a separate
  function `bytes : Nat → Nat` (headers and payloads occupy disjoint
  address ranges in every well-formed state, so the two planes are faithful).
* The program break `sbrk` is the `brk` field; a growing `sbrk` call that
  can fail is modelled by the `grow_ok : Bool` argument of `malloc`
  (`grow_ok = false` means the call returns `(void *) -1`).
* The C `while` loops of `get_free_block` and of `free`'s unlink scan are
  modelled with explicit fuel `s.mem.length`; in well-formed states the
  chain visits each header at most once, so the fuel is never exhausted.
* `free`'s shrink path discards the header of the freed block
  (`removeHeader`): its storage is returned to the OS and no longer exists.
* Reads through dangling pointers (a lookup that misses) are undefined
  behaviour in C; the model returns early in those branches.
-/

namespace MemAlloc

/-- `sizeof(header_t)`: the header union is padded to 16 bytes by `ALIGN`. -/
def HEADER_SIZE : Nat := 16

/-- Modulus of the native unsigned integer width (`size_t` is 64-bit). -/
def SIZE_MOD : Nat := 2 ^ 64

/-- The `struct s` inside `union header`: payload size, free flag and the
forward link of the intrusive list (`NULL` is `none`). -/
structure Header where
  size : Nat
  is_free : Bool
  next : Option Nat
deriving DecidableEq, Repr

/-- The allocator state: the header memory, the globals `head` and `tail`,
the program break `brk`, and the payload byte memory. -/
structure HeapState where
  mem : List (Nat × Header)
  head : Option Nat
  tail : Option Nat
  brk : Nat
  bytes : Nat → Nat

/-- Load the header stored at address `a` (first binding wins). -/
def lookupMem (mem : List (Nat × Header)) (a : Nat) : Option Header :=
  List.lookup a mem

/-- Store through an update function at address `a` (in-place header write). -/
def setHeader (mem : List (Nat × Header)) (a : Nat) (f : Header → Header) :
    List (Nat × Header) :=
  mem.map fun p => if p.1 = a then (p.1, f p.2) else p

/-- Write a whole header at `a`: overwrite if mapped, otherwise the address
is fresh memory just obtained from `sbrk` and the binding is appended. -/
def storeHeader (mem : List (Nat × Header)) (a : Nat) (h : Header) :
    List (Nat × Header) :=
  if (lookupMem mem a).isSome then setHeader mem a fun _ => h
  else mem ++ [(a, h)]

/-- The storage of the header at `a` is returned to the OS. -/
def removeHeader (mem : List (Nat × Header)) (a : Nat) : List (Nat × Header) :=
  mem.filter fun p => p.1 != a

/-- `is_free` store (`header->s.is_free = b`). -/
def setIsFree (b : Bool) (h : Header) : Header := { h with is_free := b }

/-- `next` store (`header->s.next = n`). -/
def setNextH (n : Option Nat) (h : Header) : Header := { h with next := n }

/-- The loop of `get_free_block` (src/main.c:89-100): walk the chain from
`curr`, returning the first header that is free and large enough. -/
def get_free_block_loop (mem : List (Nat × Header)) (size : Nat) :
    Nat → Option Nat → Option Nat
  | _, none => none
  | 0, some _ => none
  | fuel + 1, some a =>
    match lookupMem mem a with
    | none => none
    | some h =>
      if h.is_free && decide (size ≤ h.size) then some a
      else get_free_block_loop mem size fuel h.next

/-- `get_free_block` (src/main.c:89-100): scan starts at `head`. -/
def get_free_block (s : HeapState) (size : Nat) : Option Nat :=
  get_free_block_loop s.mem size s.mem.length s.head

/-- `malloc` (src/main.c:102-148).  Returns the payload pointer (or `none`)
and the next state.  `grow_ok` tells whether the `sbrk(total_size)` call
would succeed. -/
def malloc (s : HeapState) (size : Nat) (grow_ok : Bool) :
    Option Nat × HeapState :=
  if size = 0 then (none, s)
  else
    match get_free_block s size with
    | some a =>
      (some (a + HEADER_SIZE), { s with mem := setHeader s.mem a (setIsFree false) })
    | none =>
      if grow_ok then
        let b := s.brk
        let mem1 := storeHeader s.mem b ⟨size, false, none⟩
        let mem2 :=
          match s.tail with
          | some t => setHeader mem1 t (setNextH (some b))
          | none => mem1
        (some (b + HEADER_SIZE),
          { s with
              mem := mem2
              head := if s.head = none then some b else s.head
              tail := some b
              brk := s.brk + (HEADER_SIZE + size) })
      else (none, s)

/-- The unlink scan of `free` (src/main.c:174-181): walk from `curr` until a
node whose `next` equals `tl` is found; null its `next` and make it the new
tail.  Returns the updated memory and the updated `tail`. -/
def free_walk (mem : List (Nat × Header)) (tl : Option Nat) :
    Nat → Option Nat → List (Nat × Header) × Option Nat
  | _, none => (mem, tl)
  | 0, some _ => (mem, tl)
  | fuel + 1, some a =>
    match lookupMem mem a with
    | none => (mem, tl)
    | some h =>
      if h.next = tl then (setHeader mem a (setNextH none), some a)
      else free_walk mem tl fuel h.next

/-- `free` (src/main.c:152-192).  The argument is the payload pointer; the
header sits `HEADER_SIZE` bytes below it.  If the block's payload ends at
the program break the block is unlinked and the region shrunk, otherwise
the block is merely marked free. -/
def free (s : HeapState) (p : Option Nat) : HeapState :=
  match p with
  | none => s
  | some block =>
    let a := block - HEADER_SIZE
    match lookupMem s.mem a with
    | none => s
    | some h =>
      if block + h.size = s.brk then
        let s' :=
          if s.head = s.tail then { s with head := none, tail := none }
          else
            let w := free_walk s.mem s.tail s.mem.length s.head
            { s with mem := w.1, tail := w.2 }
        { s' with
            mem := removeHeader s'.mem a
            brk := s.brk - (HEADER_SIZE + h.size) }
      else { s with mem := setHeader s.mem a (setIsFree true) }

/-- The argument checks of `calloc` (src/main.c:200-206): zero arguments are
rejected, then `size = num * nsize` is computed in `size_t` arithmetic and
the inverse-division overflow check is applied. -/
def calloc_size (num nsize : Nat) : Option Nat :=
  if num = 0 ∨ nsize = 0 then none
  else
    let size := num * nsize % SIZE_MOD
    if nsize ≠ size / num then none else some size

/-- `memset(block, 0, size)` on the byte memory. -/
def memset0 (f : Nat → Nat) (a n : Nat) : Nat → Nat :=
  fun x => if a ≤ x ∧ x < a + n then 0 else f x

/-- `memcpy(dst, src, n)` on the byte memory (simultaneous read). -/
def memcpyB (f : Nat → Nat) (dst src n : Nat) : Nat → Nat :=
  fun x => if dst ≤ x ∧ x < dst + n then f (src + (x - dst)) else f x

/-- `calloc` (src/main.c:196-216). -/
def calloc (s : HeapState) (num nsize : Nat) (grow_ok : Bool) :
    Option Nat × HeapState :=
  match calloc_size num nsize with
  | none => (none, s)
  | some size =>
    match malloc s size grow_ok with
    | (none, s₁) => (none, s₁)
    | (some p, s₁) => (some p, { s₁ with bytes := memset0 s₁.bytes p size })

/-- `realloc` (src/main.c:220-242).  A `none` pointer or a zero size
delegates to `malloc`; a large enough block is returned unchanged;
otherwise a new block is obtained, `header->s.size` bytes are copied
(the size is re-read from memory after the `malloc` call, as the C does)
and the old block is freed. -/
def realloc (s : HeapState) (p : Option Nat) (size : Nat) (grow_ok : Bool) :
    Option Nat × HeapState :=
  match p with
  | none => malloc s size grow_ok
  | some block =>
    if size = 0 then malloc s size grow_ok
    else
      let a := block - HEADER_SIZE
      match lookupMem s.mem a with
      | none => (none, s)
      | some h =>
        if size ≤ h.size then (some block, s)
        else
          match malloc s size grow_ok with
          | (none, s₁) => (none, s₁)
          | (some ret, s₁) =>
            let oldsz :=
              match lookupMem s₁.mem a with
              | some h₁ => h₁.size
              | none => h.size
            let s₂ := { s₁ with bytes := memcpyB s₁.bytes ret block oldsz }
            (some ret, free s₂ (some block))

/-- Read `n` payload bytes starting at address `a`. -/
def readBytes (f : Nat → Nat) (a n : Nat) : List Nat :=
  (List.range n).map fun i => f (a + i)

/-! ## Well-formedness -/

/-- One link of the chain: `p`'s `next` points at `q` and `q`'s header
starts exactly where `p`'s payload ends. -/
def blockStep (p q : Nat × Header) : Prop :=
  p.2.next = some q.1 ∧ p.1 + HEADER_SIZE + p.2.size = q.1

/-- The header memory, listed in address order, is one contiguous chain
whose last block's payload ends exactly at the program break. -/
def chainSeg (L : List (Nat × Header)) (brk : Nat) : Prop :=
  List.Chain' blockStep L ∧
  ∀ p ∈ L.getLast?, p.2.next = none ∧ p.1 + HEADER_SIZE + p.2.size = brk

/-- Full representation invariant: `head` is the first header, `tail` the
last, and the memory is a contiguous chain ending at `brk`. -/
def WF (s : HeapState) : Prop :=
  s.head = s.mem.head?.map Prod.fst ∧
  s.tail = s.mem.getLast?.map Prod.fst ∧
  chainSeg s.mem s.brk

/-- Walk the `next` links from `curr`, collecting the visited addresses;
`none` when a link dangles or the fuel runs out (a cycle). -/
def walkChain (mem : List (Nat × Header)) :
    Nat → Option Nat → Option (List Nat)
  | _, none => some []
  | 0, some _ => none
  | fuel + 1, some a =>
    match lookupMem mem a with
    | none => none
    | some h => (walkChain mem fuel h.next).map (a :: ·)

/-- The spec's chain invariant, stated over the pointer structure: `head`
is absent iff `tail` is absent iff no blocks exist, and the chain reachable
from `head` via `next` terminates, its last visited block being `tail`. -/
def ChainInv (s : HeapState) : Prop :=
  (s.head = none ↔ s.tail = none) ∧
  (s.head = none ↔ s.mem = []) ∧
  ∃ L, walkChain s.mem s.mem.length s.head = some L ∧ L.getLast? = s.tail

/-! ## Concrete states used as witnesses -/

/-- An all-zero byte plane. -/
def bytes0 : Nat → Nat := fun _ => 0

/-- The empty heap, with the program break at 1000. -/
def s0 : HeapState := ⟨[], none, none, 1000, bytes0⟩

/-- A reachable state whose tail block is free: from the empty heap run
`malloc 16` (block A), `malloc 16` (block B), `free A`, `free B`.  Freeing
B shrinks the heap and makes the already-free A the tail. -/
def cexS : HeapState :=
  free (free (malloc (malloc s0 16 true).2 16 true).2 (malloc s0 16 true).1)
    (malloc (malloc s0 16 true).2 16 true).1

/-- A well-formed two-block heap: both blocks live, sizes 16, chained
1000 → 1032, break at 1064 (the state reached by two `malloc 16` calls
from the empty heap). -/
def s2 : HeapState :=
  ⟨[(1000, ⟨16, false, some 1032⟩), (1032, ⟨16, false, none⟩)],
   some 1000, some 1032, 1064, bytes0⟩

/-! ## Basic facts about the header memory -/

theorem lookupMem_nil (a : Nat) : lookupMem [] a = none := rfl

theorem lookupMem_cons (k : Nat) (v : Header) (l : List (Nat × Header)) (a : Nat) :
    lookupMem ((k, v) :: l) a = if a = k then some v else lookupMem l a := by
  cases hbe : (a == k) with
  | false =>
    have hne : a ≠ k := ne_of_beq_false hbe
    simp [lookupMem, List.lookup, hbe, hne]
  | true =>
    have heq : a = k := eq_of_beq hbe
    simp [lookupMem, List.lookup, hbe, heq]

theorem lookupMem_append_left {l₁ : List (Nat × Header)} {a : Nat} {v : Header}
    (l₂ : List (Nat × Header)) (h : lookupMem l₁ a = some v) :
    lookupMem (l₁ ++ l₂) a = some v := by
  induction l₁ with
  | nil => simp [lookupMem_nil] at h
  | cons q l ih =>
    rw [List.cons_append]
    rw [lookupMem_cons] at h ⊢
    by_cases hq : a = q.1 <;> simp [hq] at h ⊢ <;> simp_all

theorem lookupMem_append_right {l₁ : List (Nat × Header)} {a : Nat}
    (l₂ : List (Nat × Header)) (h : lookupMem l₁ a = none) :
    lookupMem (l₁ ++ l₂) a = lookupMem l₂ a := by
  induction l₁ with
  | nil => simp
  | cons q l ih =>
    rw [List.cons_append]
    rw [lookupMem_cons] at h ⊢
    by_cases hq : a = q.1 <;> simp [hq] at h ⊢ <;> simp_all

theorem lookupMem_eq_none {l : List (Nat × Header)} {a : Nat}
    (h : ∀ q ∈ l, q.1 ≠ a) : lookupMem l a = none := by
  induction l with
  | nil => rfl
  | cons q l ih =>
    rw [lookupMem_cons]
    have hq := h q (by simp)
    rw [if_neg (fun e => hq e.symm)]
    exact ih fun x hx => h x (by simp [hx])

theorem mem_of_lookupMem {l : List (Nat × Header)} {a : Nat} {v : Header}
    (h : lookupMem l a = some v) : (a, v) ∈ l := by
  induction l with
  | nil => simp [lookupMem_nil] at h
  | cons q l ih =>
    rw [lookupMem_cons] at h
    by_cases hq : a = q.1
    · rw [if_pos hq] at h
      cases h; subst hq; simp
    · rw [if_neg hq] at h
      simp [ih h]

theorem lookup_setHeader_self (l : List (Nat × Header)) (a : Nat) (f : Header → Header) :
    lookupMem (setHeader l a f) a = (lookupMem l a).map f := by
  induction l with
  | nil => rfl
  | cons q l ih =>
    by_cases hq : q.1 = a
    · simp only [setHeader, List.map_cons, if_pos hq]
      rw [lookupMem_cons, lookupMem_cons, if_pos hq.symm, if_pos hq.symm]
      rfl
    · simp only [setHeader, List.map_cons, if_neg hq]
      rw [lookupMem_cons, lookupMem_cons, if_neg (fun e => hq e.symm),
        if_neg (fun e => hq e.symm)]
      exact ih

theorem lookup_setHeader_ne (l : List (Nat × Header)) {a b : Nat}
    (f : Header → Header) (hab : b ≠ a) :
    lookupMem (setHeader l a f) b = lookupMem l b := by
  induction l with
  | nil => rfl
  | cons q l ih =>
    by_cases hq : q.1 = a
    · simp only [setHeader, List.map_cons, if_pos hq]
      rw [lookupMem_cons, lookupMem_cons, if_neg (hq ▸ hab), if_neg (hq ▸ hab)]
      exact ih
    · simp only [setHeader, List.map_cons, if_neg hq]
      rw [lookupMem_cons, lookupMem_cons]
      by_cases hb : b = q.1 <;> simp [hb] <;> exact ih

theorem setHeader_append (l₁ l₂ : List (Nat × Header)) (a : Nat) (f : Header → Header) :
    setHeader (l₁ ++ l₂) a f = setHeader l₁ a f ++ setHeader l₂ a f :=
  List.map_append _ _ _

theorem setHeader_of_not_mem {l : List (Nat × Header)} {a : Nat} (f : Header → Header)
    (h : ∀ q ∈ l, q.1 ≠ a) : setHeader l a f = l := by
  unfold setHeader
  have hc : ∀ q ∈ l, (if q.1 = a then (q.1, f q.2) else q) = id q := fun q hq => by
    simp [h q hq]
  rw [List.map_congr_left hc, List.map_id]

theorem setHeader_keys (l : List (Nat × Header)) (a : Nat) (f : Header → Header) :
    (setHeader l a f).map Prod.fst = l.map Prod.fst := by
  unfold setHeader
  rw [List.map_map]
  exact List.map_congr_left fun q _ => by by_cases hq : q.1 = a <;> simp [hq]

theorem setHeader_cons_self (k : Nat) (v : Header) (l : List (Nat × Header))
    (f : Header → Header) :
    setHeader ((k, v) :: l) k f = (k, f v) :: setHeader l k f := by
  simp [setHeader]

theorem setHeader_cons_ne (k : Nat) (v : Header) (l : List (Nat × Header))
    {a : Nat} (f : Header → Header) (h : k ≠ a) :
    setHeader ((k, v) :: l) a f = (k, v) :: setHeader l a f := by
  simp [setHeader, h]

theorem removeHeader_append (l₁ l₂ : List (Nat × Header)) (a : Nat) :
    removeHeader (l₁ ++ l₂) a = removeHeader l₁ a ++ removeHeader l₂ a := by
  unfold removeHeader
  exact List.filter_append _ _

theorem removeHeader_of_not_mem {l : List (Nat × Header)} {a : Nat}
    (h : ∀ q ∈ l, q.1 ≠ a) : removeHeader l a = l :=
  List.filter_eq_self.2 fun q hq => by simpa using h q hq

theorem removeHeader_singleton_self (a : Nat) (v : Header) :
    removeHeader [(a, v)] a = [] := by
  simp [removeHeader]

theorem lookup_removeHeader_self (l : List (Nat × Header)) (a : Nat) :
    lookupMem (removeHeader l a) a = none := by
  apply lookupMem_eq_none
  intro q hq
  have := List.of_mem_filter hq
  simpa using this

/-! ## Structural facts about well-formed chains -/

theorem HEADER_SIZE_pos : 0 < HEADER_SIZE := by decide

theorem blockStep_key_lt {p q : Nat × Header} (h : blockStep p q) : p.1 < q.1 := by
  have := h.2
  have hp := HEADER_SIZE_pos
  omega

theorem chainSeg_nil (brk : Nat) : chainSeg [] brk := by
  constructor
  · exact List.chain'_nil
  · intro p hp
    simp at hp

theorem chainSeg_tail {q r : Nat × Header} {rest : List (Nat × Header)} {brk : Nat}
    (h : chainSeg (q :: r :: rest) brk) : chainSeg (r :: rest) brk := by
  refine ⟨(List.chain'_cons.1 h.1).2, ?_⟩
  intro p hp
  exact h.2 p (by rwa [List.getLast?_cons_cons])

theorem chainSeg_step {q r : Nat × Header} {rest : List (Nat × Header)} {brk : Nat}
    (h : chainSeg (q :: r :: rest) brk) : blockStep q r :=
  (List.chain'_cons.1 h.1).1

theorem chainSeg_head_lt {q : Nat × Header} {rest : List (Nat × Header)} {brk : Nat}
    (h : chainSeg (q :: rest) brk) : ∀ x ∈ rest, q.1 < x.1 := by
  induction rest generalizing q with
  | nil => intro x hx; simp at hx
  | cons r rest ih =>
    intro x hx
    have hqr : q.1 < r.1 := blockStep_key_lt (chainSeg_step h)
    rcases List.mem_cons.1 hx with hx | hx
    · exact hx ▸ hqr
    · exact lt_trans hqr (ih (chainSeg_tail h) x hx)

theorem chainSeg_pairwise : ∀ {L : List (Nat × Header)} {brk : Nat},
    chainSeg L brk → L.Pairwise fun p q => p.1 < q.1 := by
  intro L
  induction L with
  | nil => intro brk _; exact List.Pairwise.nil
  | cons q rest ih =>
    intro brk h
    refine List.pairwise_cons.2 ⟨chainSeg_head_lt h, ?_⟩
    cases rest with
    | nil => exact List.Pairwise.nil
    | cons r rest' => exact ih (chainSeg_tail h)

theorem chainSeg_end_le : ∀ {L : List (Nat × Header)} {brk : Nat},
    chainSeg L brk → ∀ x ∈ L, x.1 + HEADER_SIZE + x.2.size ≤ brk := by
  intro L
  induction L with
  | nil => intro brk _ x hx; simp at hx
  | cons q rest ih =>
    intro brk h x hx
    rcases List.mem_cons.1 hx with hx | hx
    · subst hx
      cases rest with
      | nil =>
        have := (h.2 x (by simp)).2
        omega
      | cons r rest' =>
        have hs := chainSeg_step h
        have hr := ih (chainSeg_tail h) r (by simp)
        have := hs.2
        omega
    · cases rest with
      | nil => simp at hx
      | cons r rest' => exact ih (chainSeg_tail h) x hx

theorem chainSeg_key_lt {L : List (Nat × Header)} {brk : Nat}
    (h : chainSeg L brk) : ∀ x ∈ L, x.1 < brk := by
  intro x hx
  have := chainSeg_end_le h x hx
  have := HEADER_SIZE_pos
  omega

theorem chainSeg_last_end {L : List (Nat × Header)} {brk : Nat} {x : Nat × Header}
    (h : chainSeg L brk) (hl : L.getLast? = some x) :
    x.2.next = none ∧ x.1 + HEADER_SIZE + x.2.size = brk :=
  h.2 x (by simp [hl])

theorem chainSeg_end_eq_last : ∀ {L : List (Nat × Header)} {brk : Nat},
    chainSeg L brk → ∀ {x : Nat × Header}, x ∈ L →
    x.1 + HEADER_SIZE + x.2.size = brk → L.getLast? = some x := by
  intro L
  induction L with
  | nil => intro brk _ x hx; simp at hx
  | cons q rest ih =>
    intro brk h x hx he
    rcases List.mem_cons.1 hx with hx | hx
    · subst hx
      cases rest with
      | nil => rfl
      | cons r rest' =>
        have hs := chainSeg_step h
        have hr : r.1 < brk := chainSeg_key_lt (chainSeg_tail h) r (by simp)
        have := hs.2
        omega
    · cases rest with
      | nil => simp at hx
      | cons r rest' =>
        rw [List.getLast?_cons_cons]
        exact ih (chainSeg_tail h) hx he

theorem lookup_of_pairwise_mem : ∀ {L : List (Nat × Header)},
    (L.Pairwise fun p q => p.1 < q.1) → ∀ {a : Nat} {v : Header},
    (a, v) ∈ L → lookupMem L a = some v := by
  intro L
  induction L with
  | nil => intro _ a v hx; simp at hx
  | cons q rest ih =>
    intro hp a v hx
    rcases List.mem_cons.1 hx with hx | hx
    · rw [← hx, lookupMem_cons, if_pos rfl]
    · have hlt : q.1 < a := (List.pairwise_cons.1 hp).1 (a, v) hx
      rw [lookupMem_cons, if_neg (by omega), ih (List.pairwise_cons.1 hp).2 hx]

/-- In a well-formed state every binding of the header memory is found by a
load at its own address. -/
theorem chainSeg_lookup {L : List (Nat × Header)} {brk : Nat}
    (h : chainSeg L brk) {x : Nat × Header} (hx : x ∈ L) :
    lookupMem L x.1 = some x.2 :=
  lookup_of_pairwise_mem (chainSeg_pairwise h) hx

/-! ## The three chain traversals, characterized on well-formed suffixes -/

theorem gfb_loop_none (mem : List (Nat × Header)) (n fuel : Nat) :
    get_free_block_loop mem n fuel none = none := by
  cases fuel <;> rfl

theorem walkChain_none (mem : List (Nat × Header)) (fuel : Nat) :
    walkChain mem fuel none = some [] := by
  cases fuel <;> rfl

/-- The `get_free_block` loop, launched at the head of a chain-shaped
suffix, returns the first fitting free block of that suffix (a linear
`find?`). -/
theorem gfb_loop_spec (mem : List (Nat × Header)) (n : Nat) :
    ∀ (suf : List (Nat × Header)) (fuel : Nat), suf.length ≤ fuel →
    (∀ q ∈ suf, lookupMem mem q.1 = some q.2) →
    List.Chain' blockStep suf →
    (∀ q ∈ suf.getLast?, q.2.next = none) →
    get_free_block_loop mem n fuel (suf.head?.map Prod.fst) =
      (suf.find? fun p => p.2.is_free && decide (n ≤ p.2.size)).map Prod.fst := by
  intro suf
  induction suf with
  | nil => intro fuel _ _ _ _; simpa using gfb_loop_none mem n fuel
  | cons q rest ih =>
    intro fuel hlen hlook hch hlast
    cases fuel with
    | zero => simp at hlen
    | succ f =>
      have hq : lookupMem mem q.1 = some q.2 := hlook q (by simp)
      simp only [List.head?_cons, Option.map_some]
      show get_free_block_loop mem n (f + 1) (some q.1) = _
      simp only [get_free_block_loop, hq]
      by_cases hc : (q.2.is_free && decide (n ≤ q.2.size)) = true
      · rw [if_pos hc,
          @List.find?_cons_of_pos (Nat × Header)
            (fun p => p.2.is_free && decide (n ≤ p.2.size)) q rest hc]
        rfl
      · rw [if_neg hc,
          @List.find?_cons_of_neg (Nat × Header)
            (fun p => p.2.is_free && decide (n ≤ p.2.size)) q rest hc]
        cases rest with
        | nil =>
          have hn : q.2.next = none := hlast q (by simp)
          rw [hn, gfb_loop_none]
          rfl
        | cons r rest' =>
          have hn : q.2.next = some r.1 := (List.chain'_cons.1 hch).1.1
          rw [hn]
          have := ih f (by simpa using Nat.lt_succ_iff.1 (by simpa using hlen))
            (fun x hx => hlook x (by simp [hx])) (List.chain'_cons.1 hch).2
            (fun x hx => hlast x (by rwa [List.getLast?_cons_cons]))
          simpa using this

/-- Launching the loop from `head` of a well-formed state is a first-fit
linear scan of the whole block list. -/
theorem get_free_block_eq (s : HeapState) (hs : WF s) (n : Nat) :
    get_free_block s n =
      (s.mem.find? fun p => p.2.is_free && decide (n ≤ p.2.size)).map Prod.fst := by
  unfold get_free_block
  rw [hs.1]
  exact gfb_loop_spec s.mem n s.mem s.mem.length le_rfl
    (fun q hq => chainSeg_lookup hs.2.2 hq) hs.2.2.1
    (fun q hq => (hs.2.2.2 q hq).1)

/-- Whenever the loop answers `some a`, the header at `a` exists, is free
and holds at least `n` bytes. -/
theorem gfb_loop_some (mem : List (Nat × Header)) (n : Nat) :
    ∀ (fuel : Nat) (curr : Option Nat) {a : Nat},
    get_free_block_loop mem n fuel curr = some a →
    ∃ h, lookupMem mem a = some h ∧ h.is_free = true ∧ n ≤ h.size := by
  intro fuel
  induction fuel with
  | zero =>
    intro curr a hres
    cases curr <;> simp [get_free_block_loop, gfb_loop_none] at hres
  | succ f ih =>
    intro curr a hres
    cases curr with
    | none => simp [gfb_loop_none] at hres
    | some x =>
      rw [get_free_block_loop] at hres
      cases hx : lookupMem mem x with
      | none => rw [hx] at hres; exact absurd hres (by simp)
      | some h =>
        simp only [hx] at hres
        by_cases hc : (h.is_free && decide (n ≤ h.size)) = true
        · rw [if_pos hc] at hres
          cases hres
          rw [Bool.and_eq_true] at hc
          exact ⟨h, hx, hc.1, of_decide_eq_true hc.2⟩
        · rw [if_neg hc] at hres
          exact ih h.next hres

theorem get_free_block_some {s : HeapState} {n a : Nat}
    (h : get_free_block s n = some a) :
    ∃ hd, lookupMem s.mem a = some hd ∧ hd.is_free = true ∧ n ≤ hd.size :=
  gfb_loop_some s.mem n s.mem.length s.head h

/-- The unlink scan of `free`, launched at the head of a chain-shaped
suffix all of whose nodes lie below `tgt` and whose last node links to
`tgt`: it nulls the last node's `next` and returns it as the new tail. -/
theorem free_walk_spec (mem : List (Nat × Header)) (tgt : Nat) :
    ∀ (suf : List (Nat × Header)) (fuel : Nat) (p : Nat) (hp : Header),
    suf.length ≤ fuel →
    (∀ q ∈ suf, lookupMem mem q.1 = some q.2) →
    List.Chain' blockStep suf →
    (∀ q ∈ suf, q.1 < tgt) →
    suf.getLast? = some (p, hp) →
    hp.next = some tgt →
    free_walk mem (some tgt) fuel (suf.head?.map Prod.fst) =
      (setHeader mem p (setNextH none), some p) := by
  intro suf
  induction suf with
  | nil => intro fuel p hp _ _ _ _ hlast _; simp at hlast
  | cons q rest ih =>
    intro fuel p hp hlen hlook hch hlt hlast hnext
    cases fuel with
    | zero => simp at hlen
    | succ f =>
      have hq : lookupMem mem q.1 = some q.2 := hlook q (by simp)
      simp only [List.head?_cons, Option.map_some]
      show free_walk mem (some tgt) (f + 1) (some q.1) = _
      simp only [free_walk, hq]
      cases rest with
      | nil =>
        simp only [List.getLast?_singleton, Option.some_inj] at hlast
        rw [hlast]
        rw [if_pos (by rw [hnext])]
      | cons r rest' =>
        have hn : q.2.next = some r.1 := (List.chain'_cons.1 hch).1.1
        have hr : r.1 < tgt := hlt r (by simp)
        rw [if_neg (by rw [hn]; exact fun e => absurd (Option.some_inj.1 e) (by omega)), hn]
        have := ih f p hp (by simpa using Nat.lt_succ_iff.1 (by simpa using hlen))
          (fun x hx => hlook x (by simp [hx])) (List.chain'_cons.1 hch).2
          (fun x hx => hlt x (by simp [hx]))
          (by rwa [List.getLast?_cons_cons] at hlast) hnext
        simpa using this

/-- The chain walk visits exactly the addresses of a chain-shaped suffix. -/
theorem walkChain_spec (mem : List (Nat × Header)) :
    ∀ (suf : List (Nat × Header)) (fuel : Nat),
    suf.length ≤ fuel →
    (∀ q ∈ suf, lookupMem mem q.1 = some q.2) →
    List.Chain' blockStep suf →
    (∀ q ∈ suf.getLast?, q.2.next = none) →
    walkChain mem fuel (suf.head?.map Prod.fst) = some (suf.map Prod.fst) := by
  intro suf
  induction suf with
  | nil => intro fuel _ _ _ _; simpa using walkChain_none mem fuel
  | cons q rest ih =>
    intro fuel hlen hlook hch hlast
    cases fuel with
    | zero => simp at hlen
    | succ f =>
      have hq : lookupMem mem q.1 = some q.2 := hlook q (by simp)
      simp only [List.head?_cons, Option.map_some]
      show walkChain mem (f + 1) (some q.1) = _
      simp only [walkChain, hq]
      cases rest with
      | nil =>
        have hn : q.2.next = none := hlast q (by simp)
        rw [hn, walkChain_none]
        rfl
      | cons r rest' =>
        have hn : q.2.next = some r.1 := (List.chain'_cons.1 hch).1.1
        rw [hn]
        have h1 := ih f (by simpa using Nat.lt_succ_iff.1 (by simpa using hlen))
          (fun x hx => hlook x (by simp [hx])) (List.chain'_cons.1 hch).2
          (fun x hx => hlast x (by rwa [List.getLast?_cons_cons]))
        have h2 : walkChain mem f (some r.1) = some (List.map Prod.fst (r :: rest')) := by
          simpa using h1
        rw [h2]
        rfl

/-- Well-formedness entails the spec's pointer-level chain invariant. -/
theorem WF_chainInv (s : HeapState) (hs : WF s) : ChainInv s := by
  refine ⟨?_, ?_, s.mem.map Prod.fst, ?_, ?_⟩
  · rw [hs.1, hs.2.1]
    simp [List.head?_eq_none_iff, List.getLast?_eq_none_iff]
  · rw [hs.1]
    simp [List.head?_eq_none_iff]
  · rw [hs.1]
    exact walkChain_spec s.mem s.mem s.mem.length le_rfl
      (fun q hq => chainSeg_lookup hs.2.2 hq) hs.2.2.1
      (fun q hq => (hs.2.2.2 q hq).1)
  · rw [List.getLast?_map, hs.2.1]

/-! ## Chain surgery: how the operations transform a well-formed chain -/

theorem setHeader_head_key (l : List (Nat × Header)) (a : Nat) (f : Header → Header) :
    (setHeader l a f).head?.map Prod.fst = l.head?.map Prod.fst := by
  cases l with
  | nil => rfl
  | cons q rest => by_cases hq : q.1 = a <;> simp [setHeader, hq]

theorem setHeader_getLast_key (l : List (Nat × Header)) (a : Nat) (f : Header → Header) :
    (setHeader l a f).getLast?.map Prod.fst = l.getLast?.map Prod.fst := by
  unfold setHeader
  rw [List.getLast?_map]
  cases hl : l.getLast? with
  | none => rfl
  | some q => by_cases hq : q.1 = a <;> simp [hq]

/-- A store that changes neither `size` nor `next` (such as an `is_free`
store) keeps the chain shape intact. -/
theorem chainSeg_setHeader_pres {L : List (Nat × Header)} {brk a : Nat}
    {f : Header → Header} (hsize : ∀ h, (f h).size = h.size)
    (hnext : ∀ h, (f h).next = h.next) (h : chainSeg L brk) :
    chainSeg (setHeader L a f) brk := by
  have hg : ∀ p : Nat × Header,
      ((if p.1 = a then (p.1, f p.2) else p) : Nat × Header).1 = p.1 ∧
      ((if p.1 = a then (p.1, f p.2) else p) : Nat × Header).2.size = p.2.size ∧
      ((if p.1 = a then (p.1, f p.2) else p) : Nat × Header).2.next = p.2.next := by
    intro p
    by_cases hp : p.1 = a <;> simp [hp, hsize, hnext]
  constructor
  · refine (List.chain'_map _).2 (h.1.imp ?_)
    intro x y hxy
    have hx := hg x
    have hy := hg y
    exact ⟨hx.2.2.trans (hxy.1.trans (by rw [hy.1])), by rw [hx.1, hx.2.1, hy.1]; exact hxy.2⟩
  · intro p hp
    unfold setHeader at hp
    rw [List.getLast?_map] at hp
    cases hl : L.getLast? with
    | none => rw [hl] at hp; simp at hp
    | some q =>
      rw [hl] at hp
      simp only [Option.map_some', Option.mem_def, Option.some_inj] at hp
      have hq := h.2 q (by simp [hl])
      have hgq := hg q
      subst hp
      exact ⟨hgq.2.2.trans hq.1, by rw [hgq.1, hgq.2.1]; exact hq.2⟩

/-- Appending a fresh block at the break: link the old tail to the new
block carved at address `brk` and extend the break. -/
theorem chainSeg_snoc {init : List (Nat × Header)} {t : Nat} {ht : Header}
    {brk n : Nat} (h : chainSeg (init ++ [(t, ht)]) brk) :
    chainSeg ((init ++ [(t, setNextH (some brk) ht)]) ++ [(brk, ⟨n, false, none⟩)])
      (brk + (HEADER_SIZE + n)) := by
  have hdec := List.chain'_append.1 h.1
  have hend : t + HEADER_SIZE + ht.size = brk :=
    (chainSeg_last_end h (List.getLast?_concat init)).2
  constructor
  · rw [List.append_assoc]
    refine List.chain'_append.2 ⟨hdec.1, ?_, ?_⟩
    · refine List.chain'_cons.2 ⟨⟨rfl, hend⟩, List.chain'_singleton _⟩
    · intro x hx y hy
      simp only [List.singleton_append, List.head?_cons, Option.mem_def,
        Option.some_inj] at hy
      subst hy
      have := hdec.2.2 x hx (t, ht) (by simp)
      exact ⟨this.1, this.2⟩
  · intro p hp
    rw [List.getLast?_concat] at hp
    simp only [Option.mem_def, Option.some_inj] at hp
    subst hp
    refine ⟨rfl, ?_⟩
    show brk + HEADER_SIZE + n = brk + (HEADER_SIZE + n)
    omega

/-- Removing the last block: null the predecessor's `next` and pull the
break back to the removed block's header address. -/
theorem chainSeg_unsnoc {init₀ : List (Nat × Header)} {p a : Nat}
    {hp h : Header} {brk : Nat}
    (hc : chainSeg ((init₀ ++ [(p, hp)]) ++ [(a, h)]) brk) :
    chainSeg (init₀ ++ [(p, setNextH none hp)]) (brk - (HEADER_SIZE + h.size)) := by
  have hdec := List.chain'_append.1 hc.1
  have hstep : blockStep (p, hp) (a, h) :=
    hdec.2.2 (p, hp) (List.getLast?_concat init₀) (a, h) (by simp)
  have hend : a + HEADER_SIZE + h.size = brk :=
    (chainSeg_last_end hc (List.getLast?_concat _)).2
  have hbrk : brk - (HEADER_SIZE + h.size) = a := by omega
  have hdec₁ := List.chain'_append.1 hdec.1
  constructor
  · refine List.chain'_append.2 ⟨hdec₁.1, List.chain'_singleton _, ?_⟩
    intro x hx y hy
    simp only [List.head?_cons, Option.mem_def, Option.some_inj] at hy
    subst hy
    have := hdec₁.2.2 x hx (p, hp) (by simp)
    exact ⟨this.1, this.2⟩
  · intro q hq
    rw [List.getLast?_concat] at hq
    simp only [Option.mem_def, Option.some_inj] at hq
    subst hq
    rw [hbrk]
    exact ⟨rfl, hstep.2⟩

/-! ## The paths of `malloc` -/

theorem lookupMem_ge_brk {L : List (Nat × Header)} {brk a : Nat}
    (h : chainSeg L brk) (ha : brk ≤ a) : lookupMem L a = none :=
  lookupMem_eq_none fun q hq => by
    have := chainSeg_key_lt h q hq
    omega

/-- src/main.c:116-121: a fitting free block is reused after clearing its
`is_free` flag; nothing else changes. -/
theorem malloc_reuse {s : HeapState} {n a : Nat} (g : Bool) (hn : n ≠ 0)
    (hf : get_free_block s n = some a) :
    malloc s n g =
      (some (a + HEADER_SIZE), { s with mem := setHeader s.mem a (setIsFree false) }) := by
  unfold malloc
  rw [if_neg hn, hf]

/-- src/main.c:123-129: no fitting block and `sbrk` fails — `malloc`
returns `NULL` with the state untouched. -/
theorem malloc_fail {s : HeapState} {n : Nat} (hn : n ≠ 0)
    (hf : get_free_block s n = none) : malloc s n false = (none, s) := by
  unfold malloc
  rw [if_neg hn, hf]
  rfl

/-- src/main.c:123-147, growth path, unfolded. -/
theorem malloc_grow_eq {s : HeapState} {n : Nat} (hn : n ≠ 0)
    (hf : get_free_block s n = none) :
    malloc s n true = (some (s.brk + HEADER_SIZE),
      { s with
          mem :=
            match s.tail with
            | some t =>
              setHeader (storeHeader s.mem s.brk ⟨n, false, none⟩) t
                (setNextH (some s.brk))
            | none => storeHeader s.mem s.brk ⟨n, false, none⟩
          head := if s.head = none then some s.brk else s.head
          tail := some s.brk
          brk := s.brk + (HEADER_SIZE + n) }) := by
  unfold malloc
  rw [if_neg hn, hf]
  rfl

/-- Growth on an empty heap: the new block becomes both head and tail. -/
theorem malloc_grow_nil {s : HeapState} {n : Nat} (hn : n ≠ 0)
    (hf : get_free_block s n = none) (hmem : s.mem = [])
    (hhead : s.head = none) (htail : s.tail = none) :
    malloc s n true = (some (s.brk + HEADER_SIZE),
      { s with
          mem := [(s.brk, ⟨n, false, none⟩)]
          head := some s.brk
          tail := some s.brk
          brk := s.brk + (HEADER_SIZE + n) }) := by
  rw [malloc_grow_eq hn hf, htail, hhead, hmem]
  simp [storeHeader, lookupMem_nil]

/-- Growth on a non-empty heap: the block is appended at the break and the
old tail's `next` is linked to it; `head` is unchanged. -/
theorem malloc_grow_snoc {s : HeapState} {n : Nat} {init : List (Nat × Header)}
    {t : Nat} {ht : Header} (hs : WF s) (hn : n ≠ 0)
    (hf : get_free_block s n = none) (hmem : s.mem = init ++ [(t, ht)]) :
    malloc s n true = (some (s.brk + HEADER_SIZE),
      { s with
          mem := (init ++ [(t, setNextH (some s.brk) ht)]) ++ [(s.brk, ⟨n, false, none⟩)]
          head := s.head
          tail := some s.brk
          brk := s.brk + (HEADER_SIZE + n) }) := by
  have htail : s.tail = some t := by
    rw [hs.2.1, hmem, List.getLast?_concat]
    rfl
  have hhead : ¬s.head = none := by
    rw [hs.1, hmem]
    cases init <;> simp
  have hstore : storeHeader s.mem s.brk ⟨n, false, none⟩ =
      (init ++ [(t, ht)]) ++ [(s.brk, ⟨n, false, none⟩)] := by
    unfold storeHeader
    rw [lookupMem_ge_brk hs.2.2 le_rfl, hmem]
    rfl
  have htlt : t < s.brk :=
    chainSeg_key_lt hs.2.2 (t, ht) (by rw [hmem]; simp)
  have hinit : ∀ q ∈ init, q.1 ≠ t := by
    intro q hq
    have hpw := chainSeg_pairwise hs.2.2
    rw [hmem] at hpw
    have := (List.pairwise_append.1 hpw).2.2 q hq (t, ht) (by simp)
    omega
  have hset : setHeader ((init ++ [(t, ht)]) ++ [(s.brk, ⟨n, false, none⟩)]) t
      (setNextH (some s.brk)) =
      (init ++ [(t, setNextH (some s.brk) ht)]) ++ [(s.brk, ⟨n, false, none⟩)] := by
    rw [setHeader_append, setHeader_append, setHeader_of_not_mem _ hinit,
      setHeader_cons_self, setHeader_cons_ne _ _ _ _ (by omega)]
    rfl
  rw [malloc_grow_eq hn hf, htail, if_neg hhead]
  simp only [hstore, hset]

/-- `malloc` preserves well-formedness, for every size and growth outcome. -/
theorem wf_malloc (s : HeapState) (hs : WF s) (n : Nat) (g : Bool) :
    WF (malloc s n g).2 := by
  by_cases hn : n = 0
  · unfold malloc
    rw [if_pos hn]
    exact hs
  · cases hf : get_free_block s n with
    | some a =>
      rw [malloc_reuse g hn hf]
      refine ⟨?_, ?_, chainSeg_setHeader_pres (fun h => rfl) (fun h => rfl) hs.2.2⟩
      · rw [setHeader_head_key]
        exact hs.1
      · rw [setHeader_getLast_key]
        exact hs.2.1
    | none =>
      cases g with
      | false =>
        rw [malloc_fail hn hf]
        exact hs
      | true =>
        rcases List.eq_nil_or_concat' s.mem with hmem | ⟨init, last, hmem⟩
        · have hhead : s.head = none := by rw [hs.1, hmem]; rfl
          have htail : s.tail = none := by rw [hs.2.1, hmem]; rfl
          rw [malloc_grow_nil hn hf hmem hhead htail]
          refine ⟨rfl, rfl, ?_, ?_⟩
          · exact List.chain'_singleton _
          · intro p hp
            simp only [List.getLast?_singleton, Option.mem_def, Option.some_inj] at hp
            subst hp
            refine ⟨rfl, ?_⟩
            show s.brk + HEADER_SIZE + n = s.brk + (HEADER_SIZE + n)
            omega
        · obtain ⟨t, ht⟩ := last
          rw [malloc_grow_snoc hs hn hf hmem]
          refine ⟨?_, ?_, ?_⟩
          · show s.head = _
            rw [hs.1, hmem]
            cases init <;> simp
          · show some s.brk = _
            rw [List.getLast?_concat]
            rfl
          · have := hs.2.2
            rw [hmem] at this
            exact chainSeg_snoc this


/-! ## The paths of `free` -/

theorem free_none (s : HeapState) : free s none = s := rfl

theorem free_lookup_fail {s : HeapState} {block : Nat}
    (hl : lookupMem s.mem (block - HEADER_SIZE) = none) : free s (some block) = s := by
  simp only [free, hl]

/-- src/main.c:190: the block does not abut the break, so it is only marked
free. -/
theorem free_flip {s : HeapState} {block : Nat} {h : Header}
    (hl : lookupMem s.mem (block - HEADER_SIZE) = some h)
    (hc : ¬block + h.size = s.brk) :
    free s (some block) =
      { s with mem := setHeader s.mem (block - HEADER_SIZE) (setIsFree true) } := by
  simp only [free, hl, if_neg hc]

/-- src/main.c:170-188, sole-block case: freeing the only block clears
`head` and `tail` and shrinks the region back. -/
theorem free_shrink_single {s : HeapState} {a : Nat} {h : Header}
    (hs : WF s) (hmem : s.mem = [(a, h)]) :
    free s (some (a + HEADER_SIZE)) =
      { s with mem := [], head := none, tail := none,
               brk := s.brk - (HEADER_SIZE + h.size) } := by
  have hsub : a + HEADER_SIZE - HEADER_SIZE = a := by omega
  have hl : lookupMem s.mem a = some h := by
    rw [hmem, lookupMem_cons, if_pos rfl]
  have hend : a + HEADER_SIZE + h.size = s.brk :=
    (chainSeg_last_end hs.2.2 (by rw [hmem]; rfl)).2
  have hht : s.head = s.tail := by
    rw [hs.1, hs.2.1, hmem]
    rfl
  simp only [free, hsub, hl]
  rw [if_pos hend, if_pos hht, hmem, removeHeader_singleton_self]

/-- src/main.c:170-188, multi-block case: freeing the last block walks the
chain, nulls the predecessor's `next`, makes it the tail, and shrinks. -/
theorem free_shrink_cons {s : HeapState} {init₀ : List (Nat × Header)}
    {p a : Nat} {hp h : Header} (hs : WF s)
    (hmem : s.mem = (init₀ ++ [(p, hp)]) ++ [(a, h)]) :
    free s (some (a + HEADER_SIZE)) =
      { s with mem := init₀ ++ [(p, setNextH none hp)], tail := some p,
               brk := s.brk - (HEADER_SIZE + h.size) } := by
  have hsub : a + HEADER_SIZE - HEADER_SIZE = a := by omega
  have hmm : (a, h) ∈ s.mem := by rw [hmem]; simp
  have hl : lookupMem s.mem a = some h := chainSeg_lookup hs.2.2 hmm
  have hlast : s.mem.getLast? = some (a, h) := by rw [hmem, List.getLast?_concat]
  have hend : a + HEADER_SIZE + h.size = s.brk := (chainSeg_last_end hs.2.2 hlast).2
  have htail : s.tail = some a := by rw [hs.2.1, hlast]; rfl
  have hpw := chainSeg_pairwise hs.2.2
  rw [hmem] at hpw
  have hkeys : ∀ q ∈ init₀ ++ [(p, hp)], q.1 < a := by
    intro q hq
    have := (List.pairwise_append.1 hpw).2.2 q hq (a, h) (by simp)
    exact this
  have hinit : ∀ q ∈ init₀, q.1 < p := by
    intro q hq
    have hpw' := (List.pairwise_append.1 hpw).1
    exact (List.pairwise_append.1 hpw').2.2 q hq (p, hp) (by simp)
  have hplt : p < a := hkeys (p, hp) (by simp)
  have hch := hs.2.2.1
  rw [hmem] at hch
  have hdec := List.chain'_append.1 hch
  have hpnext : hp.next = some a :=
    (hdec.2.2 (p, hp) (List.getLast?_concat init₀) (a, h) (by simp)).1
  have hh : s.head = (init₀ ++ [(p, hp)]).head?.map Prod.fst := by
    rw [hs.1, hmem]
    cases init₀ <;> rfl
  have hne : ¬s.head = s.tail := by
    rw [hh, htail]
    cases hi : init₀ with
    | nil =>
      simp only [List.nil_append, List.head?_cons, Option.map_some']
      intro he
      have : p = a := by simpa using he
      omega
    | cons q t =>
      have hqa : q.1 < a := hkeys q (by rw [hi]; simp)
      simp only [List.cons_append, List.head?_cons, Option.map_some']
      intro he
      have : q.1 = a := by simpa using he
      omega
  have hwalk : free_walk s.mem s.tail s.mem.length s.head =
      (setHeader s.mem p (setNextH none), some p) := by
    rw [htail, hh]
    refine free_walk_spec s.mem a (init₀ ++ [(p, hp)]) s.mem.length p hp ?_ ?_ ?_ ?_ ?_ hpnext
    · rw [hmem]
      simp
    · intro q hq
      exact chainSeg_lookup hs.2.2 (by rw [hmem]; exact List.mem_append_left _ hq)
    · exact hdec.1
    · exact hkeys
    · exact List.getLast?_concat init₀
  have hset : setHeader s.mem p (setNextH none) =
      (init₀ ++ [(p, setNextH none hp)]) ++ [(a, h)] := by
    rw [hmem, setHeader_append, setHeader_append,
      setHeader_of_not_mem _ (fun q hq => by have := hinit q hq; omega),
      setHeader_cons_self, setHeader_cons_ne _ _ _ _ (by omega)]
    rfl
  have hno : ∀ q ∈ init₀ ++ [(p, setNextH none hp)], q.1 ≠ a := by
    intro q hq
    rcases List.mem_append.1 hq with hq | hq
    · have := hinit q hq
      omega
    · have he : q = (p, setNextH none hp) := by simpa using hq
      rw [he]
      show p ≠ a
      omega
  have hrem : removeHeader ((init₀ ++ [(p, setNextH none hp)]) ++ [(a, h)]) a =
      init₀ ++ [(p, setNextH none hp)] := by
    rw [removeHeader_append, removeHeader_of_not_mem hno]
    simp [removeHeader]
  simp only [free, hsub, hl, if_pos hend, if_neg hne, hwalk, hset, hrem]

/-- `free` preserves well-formedness, for every pointer. -/
theorem wf_free (s : HeapState) (hs : WF s) (pt : Option Nat) : WF (free s pt) := by
  cases pt with
  | none => exact hs
  | some block =>
    cases hl : lookupMem s.mem (block - HEADER_SIZE) with
    | none =>
      rw [free_lookup_fail hl]
      exact hs
    | some h =>
      by_cases hc : block + h.size = s.brk
      · have hmm := mem_of_lookupMem hl
        have hle := chainSeg_end_le hs.2.2 _ hmm
        have hblock : block = (block - HEADER_SIZE) + HEADER_SIZE := by
          simp only at hle
          omega
        have hend : (block - HEADER_SIZE) + HEADER_SIZE + h.size = s.brk := by omega
        have hlast := chainSeg_end_eq_last hs.2.2 hmm hend
        rcases List.getLast?_eq_some_iff.1 hlast with ⟨pre, hpre⟩
        rcases List.eq_nil_or_concat' pre with hnil | ⟨init₀, lastp, hpc⟩
        · rw [hblock, free_shrink_single hs (by rw [hpre, hnil]; rfl)]
          exact ⟨rfl, rfl, chainSeg_nil _⟩
        · obtain ⟨pk, phd⟩ := lastp
          have hmem : s.mem = (init₀ ++ [(pk, phd)]) ++ [(block - HEADER_SIZE, h)] := by
            rw [hpre, hpc]
          rw [hblock, free_shrink_cons hs hmem]
          refine ⟨?_, ?_, ?_⟩
          · show s.head = _
            rw [hs.1, hmem]
            cases init₀ <;> simp
          · show some pk = _
            rw [List.getLast?_concat]
            rfl
          · have := hs.2.2
            rw [hmem] at this
            exact chainSeg_unsnoc this
      · rw [free_flip hl hc]
        refine ⟨?_, ?_, chainSeg_setHeader_pres (fun _ => rfl) (fun _ => rfl) hs.2.2⟩
        · rw [setHeader_head_key]
          exact hs.1
        · rw [setHeader_getLast_key]
          exact hs.2.1

/-! ## Frame facts: bytes, lookups, and the composite operations -/

theorem malloc_bytes (s : HeapState) (n : Nat) (g : Bool) :
    (malloc s n g).2.bytes = s.bytes := by
  unfold malloc
  by_cases hn : n = 0
  · rw [if_pos hn]
  · rw [if_neg hn]
    cases hf : get_free_block s n with
    | some a => rfl
    | none => cases g <;> rfl

theorem free_bytes (s : HeapState) (pt : Option Nat) :
    (free s pt).bytes = s.bytes := by
  cases pt with
  | none => rfl
  | some block =>
    cases hl : lookupMem s.mem (block - HEADER_SIZE) with
    | none => rw [free_lookup_fail hl]
    | some h =>
      by_cases hc : block + h.size = s.brk
      · simp only [free, hl, if_pos hc]
        by_cases hht : s.head = s.tail <;> simp [hht]
      · rw [free_flip hl hc]

/-- Well-formedness does not mention the byte plane. -/
theorem wf_bytes_update {s : HeapState} (f : Nat → Nat) (hs : WF s) :
    WF { s with bytes := f } := hs

/-- src/main.c:196-216: when the argument checks pass, `calloc` is
`malloc` followed by a zero fill of the payload. -/
theorem calloc_delegate {s : HeapState} {num nsize size : Nat} (g : Bool)
    (hcs : calloc_size num nsize = some size) :
    calloc s num nsize g =
      match malloc s size g with
      | (none, s₁) => (none, s₁)
      | (some p, s₁) => (some p, { s₁ with bytes := memset0 s₁.bytes p size }) := by
  unfold calloc
  rw [hcs]

theorem calloc_reject {s : HeapState} {num nsize : Nat} (g : Bool)
    (hcs : calloc_size num nsize = none) : calloc s num nsize g = (none, s) := by
  unfold calloc
  rw [hcs]

/-- `calloc` preserves well-formedness. -/
theorem wf_calloc (s : HeapState) (hs : WF s) (num nsize : Nat) (g : Bool) :
    WF (calloc s num nsize g).2 := by
  cases hcs : calloc_size num nsize with
  | none =>
    rw [calloc_reject g hcs]
    exact hs
  | some size =>
    rw [calloc_delegate g hcs]
    have h1 := wf_malloc s hs size g
    cases hm : malloc s size g with
    | mk r s1 =>
      rw [hm] at h1
      cases r with
      | none => exact h1
      | some p => exact wf_bytes_update _ h1

/-- src/main.c:224-226: a `NULL` pointer delegates to `malloc`. -/
theorem realloc_none_ptr (s : HeapState) (n : Nat) (g : Bool) :
    realloc s none n g = malloc s n g := rfl

/-- src/main.c:224-226: a zero size delegates to `malloc(0)`. -/
theorem realloc_zero (s : HeapState) (block : Nat) (g : Bool) :
    realloc s (some block) 0 g = malloc s 0 g := rfl

theorem realloc_lookup_fail {s : HeapState} {block n : Nat} (g : Bool)
    (hn : n ≠ 0) (hl : lookupMem s.mem (block - HEADER_SIZE) = none) :
    realloc s (some block) n g = (none, s) := by
  simp only [realloc, if_neg hn, hl]

/-- src/main.c:229-231: the block already holds enough bytes — returned
unchanged. -/
theorem realloc_in_place {s : HeapState} {block n : Nat} {h : Header} (g : Bool)
    (hn : n ≠ 0) (hl : lookupMem s.mem (block - HEADER_SIZE) = some h)
    (hsz : n ≤ h.size) : realloc s (some block) n g = (some block, s) := by
  simp only [realloc, if_neg hn, hl, if_pos hsz]

/-- src/main.c:236-241: the growing path of `realloc`, unfolded to the
`malloc`/`memcpy`/`free` composite. -/
theorem realloc_grow_eq {s : HeapState} {block n : Nat} {h : Header} (g : Bool)
    (hn : n ≠ 0) (hl : lookupMem s.mem (block - HEADER_SIZE) = some h)
    (hsz : ¬n ≤ h.size) :
    realloc s (some block) n g =
      match malloc s n g with
      | (none, s₁) => (none, s₁)
      | (some ret, s₁) =>
        (some ret,
          free { s₁ with
              bytes := memcpyB s₁.bytes ret block
                (match lookupMem s₁.mem (block - HEADER_SIZE) with
                 | some h₁ => h₁.size
                 | none => h.size) } (some block)) := by
  simp only [realloc, if_neg hn, hl, if_neg hsz]

/-- `realloc` preserves well-formedness, for every pointer and size. -/
theorem wf_realloc (s : HeapState) (hs : WF s) (pt : Option Nat) (n : Nat) (g : Bool) :
    WF (realloc s pt n g).2 := by
  cases pt with
  | none => exact wf_malloc s hs n g
  | some block =>
    by_cases hn : n = 0
    · rw [hn, realloc_zero]
      exact wf_malloc s hs 0 g
    · cases hl : lookupMem s.mem (block - HEADER_SIZE) with
      | none =>
        rw [realloc_lookup_fail g hn hl]
        exact hs
      | some h =>
        by_cases hsz : n ≤ h.size
        · rw [realloc_in_place g hn hl hsz]
          exact hs
        · rw [realloc_grow_eq g hn hl hsz]
          have h1 := wf_malloc s hs n g
          cases hm : malloc s n g with
          | mk r s1 =>
            rw [hm] at h1
            cases r with
            | none => exact h1
            | some ret => exact wf_free _ (wf_bytes_update _ h1) _

/-- `malloc` never harms an existing non-free header: address, size and
flag survive; only the `next` field may be relinked (when the block is the
old tail of a growing heap). -/
theorem malloc_lookup_keep {s : HeapState} (hs : WF s) (n : Nat) (g : Bool)
    {a : Nat} {h : Header} (hl : lookupMem s.mem a = some h)
    (hnf : h.is_free = false) :
    ∃ nx, lookupMem (malloc s n g).2.mem a =
      some { size := h.size, is_free := h.is_free, next := nx } := by
  by_cases hn : n = 0
  · unfold malloc
    rw [if_pos hn]
    exact ⟨h.next, by rw [hl]⟩
  · cases hf : get_free_block s n with
    | some a0 =>
      rcases get_free_block_some hf with ⟨h0, hl0, hfree0, _⟩
      have hne : a ≠ a0 := by
        intro he
        rw [he, hl0] at hl
        cases hl
        rw [hfree0] at hnf
        cases hnf
      rw [malloc_reuse g hn hf]
      exact ⟨h.next, by rw [lookup_setHeader_ne _ _ hne, hl]⟩
    | none =>
      cases g with
      | false =>
        rw [malloc_fail hn hf]
        exact ⟨h.next, by rw [hl]⟩
      | true =>
        rw [malloc_grow_eq hn hf]
        have hstore : storeHeader s.mem s.brk ⟨n, false, none⟩ =
            s.mem ++ [(s.brk, ⟨n, false, none⟩)] := by
          unfold storeHeader
          rw [lookupMem_ge_brk hs.2.2 le_rfl]
          rfl
        have happ : lookupMem (s.mem ++ [(s.brk, ⟨n, false, none⟩)]) a = some h :=
          lookupMem_append_left _ hl
        cases ht : s.tail with
        | none =>
          simp only [hstore]
          exact ⟨h.next, by rw [happ]⟩
        | some t =>
          simp only [hstore]
          by_cases hta : t = a
          · refine ⟨some s.brk, ?_⟩
            rw [← hta, lookup_setHeader_self, hta, happ]
            rfl
          · refine ⟨h.next, ?_⟩
            rw [lookup_setHeader_ne _ _ (fun e => hta e.symm), happ]

/-- A one-element chain segment, by its two side conditions. -/
theorem chainSeg_singleton {a : Nat} {h : Header} {brk : Nat}
    (hn : h.next = none) (he : a + HEADER_SIZE + h.size = brk) :
    chainSeg [(a, h)] brk := by
  refine ⟨List.chain'_singleton _, ?_⟩
  intro p hp
  simp only [List.getLast?_singleton, Option.mem_def, Option.some_inj] at hp
  subst hp
  exact ⟨hn, he⟩

/-- Reading back the copied range of a `memcpy` yields the source bytes
(the read is simultaneous, so overlap does not matter). -/
theorem readBytes_memcpy (f : Nat → Nat) (dst src n : Nat) :
    readBytes (memcpyB f dst src n) dst n = readBytes f src n := by
  unfold readBytes memcpyB
  apply List.map_congr_left
  intro i hi
  have hin : i < n := List.mem_range.1 hi
  rw [if_pos (by omega)]
  congr 1
  omega

/-- After the shrink path of `free`, the freed header address is unmapped. -/
theorem free_last_lookup_none {s : HeapState} {a : Nat} {h : Header}
    (hs : WF s) (hl : lookupMem s.mem a = some h)
    (hend : a + HEADER_SIZE + h.size = s.brk) :
    lookupMem (free s (some (a + HEADER_SIZE))).mem a = none := by
  have hmm := mem_of_lookupMem hl
  have hlast := chainSeg_end_eq_last hs.2.2 hmm hend
  rcases List.getLast?_eq_some_iff.1 hlast with ⟨pre, hpre⟩
  rcases List.eq_nil_or_concat' pre with hnil | ⟨init₀, lastp, hpc⟩
  · rw [free_shrink_single hs (by rw [hpre, hnil]; rfl)]
    rfl
  · obtain ⟨pk, phd⟩ := lastp
    have hmem : s.mem = (init₀ ++ [(pk, phd)]) ++ [(a, h)] := by rw [hpre, hpc]
    have hpw := chainSeg_pairwise hs.2.2
    rw [hmem] at hpw
    rw [free_shrink_cons hs hmem]
    apply lookupMem_eq_none
    intro q hq
    rcases List.mem_append.1 hq with hq | hq
    · have := (List.pairwise_append.1 hpw).2.2 q (List.mem_append_left _ hq)
        (a, h) (by simp)
      omega
    · have he : q = (pk, setNextH none phd) := by simpa using hq
      rw [he]
      have := (List.pairwise_append.1 hpw).2.2 (pk, phd)
        (List.mem_append_right _ (by simp)) (a, h) (by simp)
      show pk ≠ a
      omega

/-! ## Claims -/

/-- C1: Chain well-formedness is an invariant: head is absent iff tail is
absent iff no blocks exist, and the chain reachable from head via next
links always terminates exactly at tail; every one of allocate,
deallocate, zero-allocate, and resize, applied to a state satisfying this
invariant (with valid arguments), yields a state that satisfies it.  (The
representation invariant `WF` strengthens the chain invariant `ChainInv`;
`WF` holds of every reachable state, implies `ChainInv`, and is preserved
by all four operations for all arguments.) -/
theorem C1_chain_invariant (s : HeapState) (hs : WF s) :
    ChainInv s ∧
    (∀ n g, WF (malloc s n g).2 ∧ ChainInv (malloc s n g).2) ∧
    (∀ pt, WF (free s pt) ∧ ChainInv (free s pt)) ∧
    (∀ num nsize g, WF (calloc s num nsize g).2 ∧ ChainInv (calloc s num nsize g).2) ∧
    (∀ pt n g, WF (realloc s pt n g).2 ∧ ChainInv (realloc s pt n g).2) :=
  ⟨WF_chainInv s hs,
   fun n g => ⟨wf_malloc s hs n g, WF_chainInv _ (wf_malloc s hs n g)⟩,
   fun pt => ⟨wf_free s hs pt, WF_chainInv _ (wf_free s hs pt)⟩,
   fun num nsize g =>
     ⟨wf_calloc s hs num nsize g, WF_chainInv _ (wf_calloc s hs num nsize g)⟩,
   fun pt n g =>
     ⟨wf_realloc s hs pt n g, WF_chainInv _ (wf_realloc s hs pt n g)⟩⟩

theorem C1_chain_invariant_witness :
    WF s0 ∧ ChainInv (malloc s0 8 true).2 :=
  have hwf : WF s0 := ⟨rfl, rfl, chainSeg_nil _⟩
  ⟨hwf, ((C1_chain_invariant s0 hwf).2.1 8 true).2⟩

/-- C7: Out-of-memory atomicity: for every size > 0, if no suitable free
block exists and the `sbrk` extend call fails, `malloc` returns an absent
result and the state — chain, head, tail, break, every header — is left
exactly as it was; no partial header is published. -/
theorem C7_oom_atomic (s : HeapState) (n : Nat) (hn : 0 < n)
    (hnf : get_free_block s n = none) :
    malloc s n false = (none, s) ∧
    (malloc s n false).2.mem = s.mem ∧
    (malloc s n false).2.head = s.head ∧
    (malloc s n false).2.tail = s.tail ∧
    (malloc s n false).2.brk = s.brk := by
  have h := malloc_fail (by omega) hnf
  rw [h]
  exact ⟨rfl, rfl, rfl, rfl, rfl⟩

theorem C7_oom_atomic_witness : malloc s0 1 false = (none, s0) :=
  (C7_oom_atomic s0 1 (by decide) rfl).1

/-- C8: resize with an absent pointer, or with new_size = 0, behaves
exactly as allocate(new_size); in particular for every pointer p,
resize(p, 0) returns an absent result with the state (hence the block's
`is_free` flag, the chain, and the break) unchanged — the block is not
freed. -/
theorem C8_resize_delegate (s : HeapState) (n : Nat) (g : Bool) (p : Nat) :
    realloc s none n g = malloc s n g ∧
    realloc s (some p) 0 g = (none, s) := by
  refine ⟨rfl, ?_⟩
  rw [realloc_zero]
  rfl

/-- C6: zero-allocate overflow rejection is complete and short-circuits:
for nonzero arguments the inverse-division check rejects exactly the
products that overflow the 64-bit `size_t`; zero arguments are rejected;
and a rejected call returns an absent result with the state untouched
(no allocate call happens). -/
theorem C6_calloc_overflow (num nsize : Nat) :
    (num ≠ 0 → nsize ≠ 0 →
      (calloc_size num nsize = none ↔ SIZE_MOD ≤ num * nsize)) ∧
    (num = 0 ∨ nsize = 0 → calloc_size num nsize = none) ∧
    (∀ s g, calloc_size num nsize = none → calloc s num nsize g = (none, s)) := by
  refine ⟨?_, ?_, fun s g h => calloc_reject g h⟩
  · intro hnum hnsize
    have hpos : 0 < num := Nat.pos_of_ne_zero hnum
    unfold calloc_size
    rw [if_neg (by tauto)]
    constructor
    · intro hnone
      by_contra hge
      push_neg at hge
      rw [Nat.mod_eq_of_lt hge] at hnone
      simp [Nat.mul_div_cancel_left nsize hpos] at hnone
    · intro hge
      have hmod : num * nsize % SIZE_MOD < SIZE_MOD :=
        Nat.mod_lt _ (by decide)
      have hdiv : num * nsize % SIZE_MOD / num < nsize :=
        Nat.div_lt_of_lt_mul (by omega)
      show (if nsize ≠ num * nsize % SIZE_MOD / num then none
            else some (num * nsize % SIZE_MOD)) = none
      rw [if_pos (by omega)]
  · intro hz
    unfold calloc_size
    rw [if_pos hz]

theorem C6_calloc_overflow_witness :
    calloc_size (2 ^ 63) 4 = none ∧ calloc_size 0 5 = none ∧
    calloc s0 (2 ^ 63) 4 true = (none, s0) :=
  have h1 : calloc_size (2 ^ 63) 4 = none :=
    ((C6_calloc_overflow (2 ^ 63) 4).1 (by decide) (by decide)).mpr (by decide)
  ⟨h1, (C6_calloc_overflow 0 5).2.1 (Or.inl rfl),
   (C6_calloc_overflow (2 ^ 63) 4).2.2 s0 true h1⟩

/-- C10: Frame property of the reuse path: when allocate(size) finds a
suitable free block it hands out that block's payload, the only state
change being that block's `is_free` flag becoming false — its size and
next fields, every other header, head, tail, the break (no region-growth
call is made) and the byte plane are all unchanged. -/
theorem C10_reuse_frame (s : HeapState) (n : Nat) (g : Bool) (a : Nat)
    (hn : 0 < n) (hf : get_free_block s n = some a) :
    ∃ h, lookupMem s.mem a = some h ∧ h.is_free = true ∧ n ≤ h.size ∧
      malloc s n g = (some (a + HEADER_SIZE),
        { s with mem := setHeader s.mem a (setIsFree false) }) ∧
      (malloc s n g).2.head = s.head ∧ (malloc s n g).2.tail = s.tail ∧
      (malloc s n g).2.brk = s.brk ∧ (malloc s n g).2.bytes = s.bytes ∧
      lookupMem (malloc s n g).2.mem a = some { h with is_free := false } ∧
      (∀ b, b ≠ a → lookupMem (malloc s n g).2.mem b = lookupMem s.mem b) := by
  rcases get_free_block_some hf with ⟨h, hl, hfree, hsz⟩
  have hre := malloc_reuse g (by omega) hf
  refine ⟨h, hl, hfree, hsz, hre, ?_, ?_, ?_, ?_, ?_, ?_⟩
  · rw [hre]
  · rw [hre]
  · rw [hre]
  · rw [hre]
  · rw [hre]
    show lookupMem (setHeader s.mem a (setIsFree false)) a = _
    rw [lookup_setHeader_self, hl]
    rfl
  · intro b hb
    rw [hre]
    show lookupMem (setHeader s.mem a (setIsFree false)) b = _
    rw [lookup_setHeader_ne _ _ hb]

theorem C10_reuse_frame_witness :
    (malloc cexS 16 true).2.brk = cexS.brk ∧ (malloc cexS 16 true).1 = some 1016 := by
  obtain ⟨h, _hl, _hfr, _hsz, hre, _hh, _ht, hbrk, _⟩ :=
    C10_reuse_frame cexS 16 true 1000 (by decide) (by decide)
  exact ⟨hbrk, by rw [hre]; rfl⟩

/-- A two-element chain segment, by its four side conditions. -/
theorem chainSeg_pair {a b : Nat} {h1 h2 : Header} {brk : Nat}
    (hn1 : h1.next = some b) (he1 : a + HEADER_SIZE + h1.size = b)
    (hn2 : h2.next = none) (he2 : b + HEADER_SIZE + h2.size = brk) :
    chainSeg [(a, h1), (b, h2)] brk := by
  refine ⟨List.chain'_cons.2 ⟨⟨hn1, he1⟩, List.chain'_singleton _⟩, ?_⟩
  intro p hp
  simp only [List.getLast?_cons_cons, List.getLast?_singleton, Option.mem_def,
    Option.some_inj] at hp
  subst hp
  exact ⟨hn2, he2⟩

theorem wf_s2 : WF s2 :=
  ⟨rfl, rfl, chainSeg_pair rfl (by decide) rfl (by decide)⟩

/-- C3: Freeing the most-recently allocated block (the tail), and only
that block, always shrinks the region — the break drops by header size
plus payload size; freeing any non-tail block only sets its `is_free`
flag to true, every other component of the state (including the region
boundary) staying unchanged. -/
theorem C3_free_shrink_iff (s : HeapState) (a : Nat) (h : Header) (hs : WF s)
    (hl : lookupMem s.mem a = some h) :
    (s.tail = some a →
      (free s (some (a + HEADER_SIZE))).brk + (HEADER_SIZE + h.size) = s.brk ∧
      (free s (some (a + HEADER_SIZE))).brk < s.brk) ∧
    (s.tail ≠ some a →
      free s (some (a + HEADER_SIZE)) =
        { s with mem := setHeader s.mem a (setIsFree true) }) := by
  have hmm := mem_of_lookupMem hl
  constructor
  · intro htl
    have hlast : s.mem.getLast? = some (a, h) := by
      rw [hs.2.1] at htl
      cases hq : s.mem.getLast? with
      | none => rw [hq] at htl; cases htl
      | some q =>
        rw [hq] at htl
        have hqa : q.1 = a := by simpa using htl
        have hqm : q ∈ s.mem := List.mem_of_mem_getLast? (by simp [hq])
        have hlq := chainSeg_lookup hs.2.2 hqm
        rw [hqa, hl] at hlq
        have hq2 : h = q.2 := Option.some_inj.1 hlq
        exact congrArg some (Prod.ext hqa hq2.symm)
    have hend : a + HEADER_SIZE + h.size = s.brk :=
      (chainSeg_last_end hs.2.2 hlast).2
    have hbrk : (free s (some (a + HEADER_SIZE))).brk =
        s.brk - (HEADER_SIZE + h.size) := by
      rcases List.getLast?_eq_some_iff.1 hlast with ⟨pre, hpre⟩
      rcases List.eq_nil_or_concat' pre with hnil | ⟨init₀, lastp, hpc⟩
      · rw [free_shrink_single hs (by rw [hpre, hnil]; rfl)]
      · obtain ⟨pk, phd⟩ := lastp
        rw [free_shrink_cons hs (by rw [hpre, hpc])]
    have hhp := HEADER_SIZE_pos
    constructor
    · rw [hbrk]
      omega
    · rw [hbrk]
      omega
  · intro htl
    have hc : ¬(a + HEADER_SIZE) + h.size = s.brk := by
      intro he
      have he' : a + HEADER_SIZE + h.size = s.brk := by omega
      have hlast := chainSeg_end_eq_last hs.2.2 hmm he'
      exact htl (by rw [hs.2.1, hlast]; rfl)
    have hl' : lookupMem s.mem ((a + HEADER_SIZE) - HEADER_SIZE) = some h := by
      rw [show a + HEADER_SIZE - HEADER_SIZE = a by omega]
      exact hl
    exact free_flip hl' hc

theorem C3_free_shrink_iff_witness :
    free s2 (some (1000 + HEADER_SIZE)) =
      { s2 with mem := setHeader s2.mem 1000 (setIsFree true) } ∧
    (free s2 (some (1032 + HEADER_SIZE))).brk + (HEADER_SIZE + 16) = s2.brk :=
  ⟨(C3_free_shrink_iff s2 1000 ⟨16, false, some 1032⟩ wf_s2 rfl).2 (by decide),
   ((C3_free_shrink_iff s2 1032 ⟨16, false, none⟩ wf_s2 rfl).1 rfl).1⟩

/-- C9: a block's payload ends at the break exactly when it is the tail
block, so the shrink path of `free` is taken only for the tail, and its
unlink removes exactly the freed block: the addresses of the remaining
headers are the original address list minus its last element, and the
freed address is no longer mapped. -/
theorem C9_shrink_is_tail (s : HeapState) (a : Nat) (h : Header) (hs : WF s)
    (hl : lookupMem s.mem a = some h) :
    ((a + HEADER_SIZE + h.size = s.brk) ↔ s.tail = some a) ∧
    (a + HEADER_SIZE + h.size = s.brk →
      (free s (some (a + HEADER_SIZE))).mem.map Prod.fst =
        (s.mem.map Prod.fst).dropLast ∧
      lookupMem (free s (some (a + HEADER_SIZE))).mem a = none) := by
  have hmm := mem_of_lookupMem hl
  have hiff : (a + HEADER_SIZE + h.size = s.brk) ↔ s.mem.getLast? = some (a, h) := by
    constructor
    · intro he
      exact chainSeg_end_eq_last hs.2.2 hmm he
    · intro hlast
      exact (chainSeg_last_end hs.2.2 hlast).2
  constructor
  · rw [hiff]
    constructor
    · intro hlast
      rw [hs.2.1, hlast]
      rfl
    · intro htl
      rw [hs.2.1] at htl
      cases hq : s.mem.getLast? with
      | none => rw [hq] at htl; cases htl
      | some q =>
        rw [hq] at htl
        have hqa : q.1 = a := by simpa using htl
        have hqm : q ∈ s.mem := List.mem_of_mem_getLast? (by simp [hq])
        have hlq := chainSeg_lookup hs.2.2 hqm
        rw [hqa, hl] at hlq
        have hq2 : h = q.2 := Option.some_inj.1 hlq
        exact congrArg some (Prod.ext hqa hq2.symm)
  · intro hend
    have hlast := hiff.1 hend
    rcases List.getLast?_eq_some_iff.1 hlast with ⟨pre, hpre⟩
    rcases List.eq_nil_or_concat' pre with hnil | ⟨init₀, lastp, hpc⟩
    · rw [free_shrink_single hs (by rw [hpre, hnil]; rfl)]
      constructor
      · rw [hpre, hnil]
        rfl
      · rfl
    · obtain ⟨pk, phd⟩ := lastp
      have hmem : s.mem = (init₀ ++ [(pk, phd)]) ++ [(a, h)] := by rw [hpre, hpc]
      have hpw := chainSeg_pairwise hs.2.2
      rw [hmem] at hpw
      rw [free_shrink_cons hs hmem]
      constructor
      · rw [hmem]
        simp [setNextH]
      · show lookupMem (init₀ ++ [(pk, setNextH none phd)]) a = none
        apply lookupMem_eq_none
        intro q hq
        rcases List.mem_append.1 hq with hq | hq
        · have := (List.pairwise_append.1 hpw).2.2 q (List.mem_append_left _ hq)
            (a, h) (by simp)
          omega
        · have he : q = (pk, setNextH none phd) := by simpa using hq
          rw [he]
          have := (List.pairwise_append.1 hpw).2.2 (pk, phd)
            (List.mem_append_right _ (by simp)) (a, h) (by simp)
          show pk ≠ a
          omega

theorem C9_shrink_is_tail_witness :
    (1032 + HEADER_SIZE + 16 = s2.brk ↔ s2.tail = some 1032) ∧
    (free s2 (some (1032 + HEADER_SIZE))).mem.map Prod.fst =
      (s2.mem.map Prod.fst).dropLast :=
  ⟨(C9_shrink_is_tail s2 1032 ⟨16, false, none⟩ wf_s2 rfl).1,
   ((C9_shrink_is_tail s2 1032 ⟨16, false, none⟩ wf_s2 rfl).2 (by decide)).1⟩

/-- C2: Allocation is first-fit with no splitting: when the linear scan of
the chain (a `find?` over the block list in chain order) locates a free
block of sufficient size, `malloc` hands out exactly that block's payload,
whole, only clearing its flag; and in particular, on an initially empty
heap, after allocate(A); allocate(B); deallocate(A); allocate(C) with
size(C) ≤ size(A) ≤ size(B), the last allocate returns the address
previously given to A and does not grow the region. -/
theorem C2_first_fit :
    (∀ (s : HeapState) (n : Nat) (g : Bool) (a : Nat) (h : Header),
      WF s → 0 < n →
      s.mem.find? (fun p => p.2.is_free && decide (n ≤ p.2.size)) = some (a, h) →
      malloc s n g = (some (a + HEADER_SIZE),
        { s with mem := setHeader s.mem a (setIsFree false) })) ∧
    (∀ (B : Nat) (bt : Nat → Nat) (sa sb sc : Nat) (pA : Option Nat)
      (s1 : HeapState) (pB : Option Nat) (s2' : HeapState) (s3 : HeapState)
      (pC : Option Nat) (s4 : HeapState),
      0 < sc → sc ≤ sa → sa ≤ sb →
      malloc ⟨[], none, none, B, bt⟩ sa true = (pA, s1) →
      malloc s1 sb true = (pB, s2') →
      free s2' pA = s3 →
      malloc s3 sc true = (pC, s4) →
      pC = pA ∧ s4.brk = s3.brk) := by
  have hhp := HEADER_SIZE_pos
  constructor
  · intro s n g a h hs hn hfind
    have hf : get_free_block s n = some a := by
      rw [get_free_block_eq s hs, hfind]
      rfl
    exact malloc_reuse g (by omega) hf
  · intro B bt sa sb sc pA s1 pB s2' s3 pC s4 hsc hca hab h1 h2 h3 h4
    have hsa : sa ≠ 0 := by omega
    have hsb : sb ≠ 0 := by omega
    have hsc' : sc ≠ 0 := by omega
    -- step 1: grow on the empty heap
    have e1 : malloc ⟨[], none, none, B, bt⟩ sa true =
        (some (B + HEADER_SIZE),
         ⟨[(B, ⟨sa, false, none⟩)], some B, some B, B + (HEADER_SIZE + sa), bt⟩) :=
      malloc_grow_nil hsa rfl rfl rfl rfl
    rw [e1] at h1
    injection h1 with hA hs1
    subst hs1
    subst hA
    -- step 2: grow again
    have hw1 : WF (⟨[(B, ⟨sa, false, none⟩)], some B, some B,
        B + (HEADER_SIZE + sa), bt⟩ : HeapState) :=
      ⟨rfl, rfl, chainSeg_singleton rfl
        (by show B + HEADER_SIZE + sa = B + (HEADER_SIZE + sa); omega)⟩
    have gfb2 : get_free_block ⟨[(B, ⟨sa, false, none⟩)], some B, some B,
        B + (HEADER_SIZE + sa), bt⟩ sb = none := by
      rw [get_free_block_eq _ hw1]
      rfl
    have e2 : malloc (⟨[(B, ⟨sa, false, none⟩)], some B, some B,
        B + (HEADER_SIZE + sa), bt⟩ : HeapState) sb true =
        (some (B + (HEADER_SIZE + sa) + HEADER_SIZE),
         ⟨[(B, ⟨sa, false, some (B + (HEADER_SIZE + sa))⟩),
           (B + (HEADER_SIZE + sa), ⟨sb, false, none⟩)],
          some B, some (B + (HEADER_SIZE + sa)),
          B + (HEADER_SIZE + sa) + (HEADER_SIZE + sb), bt⟩) :=
      malloc_grow_snoc hw1 hsb gfb2
        (show ([(B, (⟨sa, false, none⟩ : Header))] : List (Nat × Header)) =
          [] ++ [(B, ⟨sa, false, none⟩)] from rfl)
    rw [e2] at h2
    injection h2 with hB hs2
    subst hs2
    subst hB
    -- step 3: free A, which is not the tail: flag flip only
    have hl3 : lookupMem [(B, ⟨sa, false, some (B + (HEADER_SIZE + sa))⟩),
        (B + (HEADER_SIZE + sa), ⟨sb, false, none⟩)]
        (B + HEADER_SIZE - HEADER_SIZE) = some ⟨sa, false, some (B + (HEADER_SIZE + sa))⟩ := by
      rw [show B + HEADER_SIZE - HEADER_SIZE = B by omega, lookupMem_cons, if_pos rfl]
    have hc3 : ¬(B + HEADER_SIZE) + sa =
        B + (HEADER_SIZE + sa) + (HEADER_SIZE + sb) := by omega
    have e3 : free (⟨[(B, ⟨sa, false, some (B + (HEADER_SIZE + sa))⟩),
        (B + (HEADER_SIZE + sa), ⟨sb, false, none⟩)], some B,
        some (B + (HEADER_SIZE + sa)),
        B + (HEADER_SIZE + sa) + (HEADER_SIZE + sb), bt⟩ : HeapState)
        (some (B + HEADER_SIZE)) =
        ⟨setHeader [(B, ⟨sa, false, some (B + (HEADER_SIZE + sa))⟩),
          (B + (HEADER_SIZE + sa), ⟨sb, false, none⟩)]
          (B + HEADER_SIZE - HEADER_SIZE) (setIsFree true),
         some B, some (B + (HEADER_SIZE + sa)),
         B + (HEADER_SIZE + sa) + (HEADER_SIZE + sb), bt⟩ :=
      free_flip hl3 hc3
    rw [e3] at h3
    have hset : setHeader [(B, ⟨sa, false, some (B + (HEADER_SIZE + sa))⟩),
        (B + (HEADER_SIZE + sa), ⟨sb, false, none⟩)] (B + HEADER_SIZE - HEADER_SIZE)
        (setIsFree true) =
        [(B, ⟨sa, true, some (B + (HEADER_SIZE + sa))⟩),
         (B + (HEADER_SIZE + sa), ⟨sb, false, none⟩)] := by
      rw [show B + HEADER_SIZE - HEADER_SIZE = B by omega, setHeader_cons_self,
        setHeader_cons_ne _ _ _ _ (by omega)]
      rfl
    rw [hset] at h3
    subst h3
    -- step 4: first-fit reuses A
    have hw3 : WF (⟨[(B, ⟨sa, true, some (B + (HEADER_SIZE + sa))⟩),
        (B + (HEADER_SIZE + sa), ⟨sb, false, none⟩)], some B,
        some (B + (HEADER_SIZE + sa)),
        B + (HEADER_SIZE + sa) + (HEADER_SIZE + sb), bt⟩ : HeapState) :=
      ⟨rfl, rfl, chainSeg_pair rfl
        (by show B + HEADER_SIZE + sa = B + (HEADER_SIZE + sa); omega) rfl
        (by show B + (HEADER_SIZE + sa) + HEADER_SIZE + sb =
              B + (HEADER_SIZE + sa) + (HEADER_SIZE + sb); omega)⟩
    have gfb4 : get_free_block (⟨[(B, ⟨sa, true, some (B + (HEADER_SIZE + sa))⟩),
        (B + (HEADER_SIZE + sa), ⟨sb, false, none⟩)], some B,
        some (B + (HEADER_SIZE + sa)),
        B + (HEADER_SIZE + sa) + (HEADER_SIZE + sb), bt⟩ : HeapState) sc = some B := by
      rw [get_free_block_eq _ hw3]
      rw [@List.find?_cons_of_pos (Nat × Header)
        (fun p => p.2.is_free && decide (sc ≤ p.2.size)) _ _ (by simp [hca])]
      rfl
    have e4 := malloc_reuse true hsc' gfb4
    rw [e4] at h4
    injection h4 with hC hs4
    subst hs4
    subst hC
    exact ⟨rfl, rfl⟩

theorem C2_first_fit_witness :
    (malloc (free (malloc (malloc s0 16 true).2 16 true).2
        (malloc s0 16 true).1) 16 true).1 = (malloc s0 16 true).1 :=
  (C2_first_fit.2 1000 bytes0 16 16 16 (malloc s0 16 true).1 (malloc s0 16 true).2
    (malloc (malloc s0 16 true).2 16 true).1 (malloc (malloc s0 16 true).2 16 true).2
    (free (malloc (malloc s0 16 true).2 16 true).2 (malloc s0 16 true).1)
    (malloc (free (malloc (malloc s0 16 true).2 16 true).2 (malloc s0 16 true).1) 16 true).1
    (malloc (free (malloc (malloc s0 16 true).2 16 true).2 (malloc s0 16 true).1) 16 true).2
    (by decide) (by decide) (by decide) rfl rfl rfl rfl).1

/-- C5: resize preserves content: for every live block of size `sz`
holding any byte pattern and any `size2 > sz`, when
`resize(ptr, size2)` returns a pointer, the first `sz` bytes at the new
pointer equal the old pattern (exactly `header.size = sz` bytes — the old
size — are copied from the old block to the new one), and the old block
has been deallocated: its header is either gone (shrink) or marked free. -/
theorem C5_resize_preserves (s : HeapState) (a sz : Nat) (nx : Option Nat)
    (size2 : Nat) (g : Bool) (r : Nat) (s' : HeapState) (hs : WF s)
    (hl : lookupMem s.mem a = some ⟨sz, false, nx⟩) (hlt : sz < size2)
    (hr : realloc s (some (a + HEADER_SIZE)) size2 g = (some r, s')) :
    readBytes s'.bytes r sz = readBytes s.bytes (a + HEADER_SIZE) sz ∧
    (lookupMem s'.mem a = none ∨
      ∃ h', lookupMem s'.mem a = some h' ∧ h'.is_free = true) := by
  have hn2 : size2 ≠ 0 := by omega
  have hsub : a + HEADER_SIZE - HEADER_SIZE = a := by omega
  have hl' : lookupMem s.mem (a + HEADER_SIZE - HEADER_SIZE) =
      some ⟨sz, false, nx⟩ := by
    rw [hsub]
    exact hl
  have hsz : ¬size2 ≤ (⟨sz, false, nx⟩ : Header).size := by
    show ¬size2 ≤ sz
    omega
  rw [realloc_grow_eq g hn2 hl' hsz] at hr
  have hw1 := wf_malloc s hs size2 g
  have hk := malloc_lookup_keep hs size2 g hl rfl
  have hby := malloc_bytes s size2 g
  cases hm : malloc s size2 g with
  | mk res s1 =>
    rw [hm] at hr hw1 hk hby
    obtain ⟨nx1, hk1⟩ := hk
    cases res with
    | none =>
      exact absurd hr (by simp)
    | some ret =>
      rw [hsub] at hr
      simp only [hk1] at hr
      injection hr with h1 h2
      have hrr : ret = r := Option.some_inj.1 h1
      subst hrr
      subst h2
      constructor
      · rw [free_bytes]
        show readBytes (memcpyB s1.bytes ret (a + HEADER_SIZE) sz) ret sz = _
        rw [readBytes_memcpy, hby]
      · have hkX : lookupMem s1.mem a = some ⟨sz, false, nx1⟩ := hk1
        by_cases hcX : a + HEADER_SIZE + sz =
            ({ s1 with bytes := memcpyB s1.bytes ret (a + HEADER_SIZE) sz} : HeapState).brk
        · left
          exact free_last_lookup_none
            (wf_bytes_update (memcpyB s1.bytes ret (a + HEADER_SIZE) sz) hw1) hkX hcX
        · right
          have hlX : lookupMem s1.mem ((a + HEADER_SIZE) - HEADER_SIZE) =
              some ⟨sz, false, nx1⟩ := by
            rw [hsub]
            exact hkX
          have eX : free (⟨s1.mem, s1.head, s1.tail, s1.brk,
                memcpyB s1.bytes ret (a + HEADER_SIZE) sz⟩ : HeapState)
              (some (a + HEADER_SIZE)) =
              ⟨setHeader s1.mem (a + HEADER_SIZE - HEADER_SIZE) (setIsFree true),
               s1.head, s1.tail, s1.brk,
               memcpyB s1.bytes ret (a + HEADER_SIZE) sz⟩ :=
            free_flip hlX hcX
          rw [eX]
          refine ⟨⟨sz, true, nx1⟩, ?_, rfl⟩
          show lookupMem (setHeader s1.mem (a + HEADER_SIZE - HEADER_SIZE)
            (setIsFree true)) a = _
          rw [hsub, lookup_setHeader_self, hkX]
          rfl

theorem C5_resize_preserves_witness :
    readBytes (realloc s2 (some (1000 + HEADER_SIZE)) 24 true).2.bytes 1080 16 =
      readBytes s2.bytes (1000 + HEADER_SIZE) 16 :=
  (C5_resize_preserves s2 1000 16 (some 1032) 24 true 1080
    (realloc s2 (some (1000 + HEADER_SIZE)) 24 true).2 wf_s2 rfl (by decide) rfl).1

/-- C4 counterexample: the claim fails on the reachable state `cexS`,
whose sole block is free and abuts the break (reached from the empty heap
by `malloc 16; malloc 16; free A; free B`).  `allocate 16` reuses that
free tail block and the immediate `deallocate` then takes the shrink
path, clearing `head` and `tail` — they are not restored to `some 1000`. -/
theorem C4_roundtrip_counterexample :
    WF cexS ∧ 0 < 16 ∧
    (free (malloc cexS 16 true).2 (malloc cexS 16 true).1).head ≠ cexS.head ∧
    (free (malloc cexS 16 true).2 (malloc cexS 16 true).1).tail ≠ cexS.tail :=
  ⟨⟨rfl, rfl, chainSeg_singleton rfl (by decide)⟩, by decide, by decide, by decide⟩

/-- C4 (amended): for every size > 0 and every well-formed allocator state
whose tail block (if any) is not free, allocate(size) immediately followed
by deallocate of the returned pointer leaves head and tail identical to
their values before the allocate call, and the region boundary is restored
fully (in particular on an otherwise-empty heap).  The counterexample
forces the added proviso: when the tail block is already free, the
round-trip reuses it and then removes it, changing head and tail. -/
theorem C4_roundtrip_amended (s : HeapState) (n : Nat) (g : Bool) (hs : WF s)
    (hn : 0 < n) (htf : ∀ q ∈ s.mem.getLast?, q.2.is_free = false) :
    (free (malloc s n g).2 (malloc s n g).1).head = s.head ∧
    (free (malloc s n g).2 (malloc s n g).1).tail = s.tail ∧
    (free (malloc s n g).2 (malloc s n g).1).brk = s.brk := by
  have hhp := HEADER_SIZE_pos
  have hn' : n ≠ 0 := by omega
  cases hf : get_free_block s n with
  | some a =>
    rcases get_free_block_some hf with ⟨h, hl, hfree, hsz⟩
    have hmm := mem_of_lookupMem hl
    have hre := malloc_reuse g hn' hf
    rw [hre]
    have hl1 : lookupMem (setHeader s.mem a (setIsFree false)) a =
        some (setIsFree false h) := by
      rw [lookup_setHeader_self, hl]
      rfl
    have hnotlast : ¬s.mem.getLast? = some (a, h) := by
      intro he
      have := htf (a, h) (by simp [he])
      rw [hfree] at this
      cases this
    have hnc : ¬(a + HEADER_SIZE) + h.size = s.brk := by
      intro he
      have he' : a + HEADER_SIZE + h.size = s.brk := by omega
      exact hnotlast (chainSeg_end_eq_last hs.2.2 hmm he')
    have hl1' : lookupMem (setHeader s.mem a (setIsFree false))
        (a + HEADER_SIZE - HEADER_SIZE) = some (setIsFree false h) := by
      rw [show a + HEADER_SIZE - HEADER_SIZE = a by omega]
      exact hl1
    have eF : free (⟨setHeader s.mem a (setIsFree false), s.head, s.tail, s.brk,
          s.bytes⟩ : HeapState) (some (a + HEADER_SIZE)) =
        ⟨setHeader (setHeader s.mem a (setIsFree false))
          (a + HEADER_SIZE - HEADER_SIZE) (setIsFree true),
         s.head, s.tail, s.brk, s.bytes⟩ :=
      free_flip hl1' hnc
    rw [eF]
    exact ⟨rfl, rfl, rfl⟩
  | none =>
    cases g with
    | false =>
      rw [malloc_fail hn' hf]
      exact ⟨rfl, rfl, rfl⟩
    | true =>
      rcases List.eq_nil_or_concat' s.mem with hmem | ⟨init, lastp, hmem⟩
      · have hhead : s.head = none := by rw [hs.1, hmem]; rfl
        have htail : s.tail = none := by rw [hs.2.1, hmem]; rfl
        rw [malloc_grow_nil hn' hf hmem hhead htail]
        have hw1 : WF (⟨[(s.brk, ⟨n, false, none⟩)], some s.brk, some s.brk,
            s.brk + (HEADER_SIZE + n), s.bytes⟩ : HeapState) :=
          ⟨rfl, rfl, chainSeg_singleton rfl
            (by show s.brk + HEADER_SIZE + n = s.brk + (HEADER_SIZE + n); omega)⟩
        have eF := free_shrink_single hw1 rfl
        rw [eF]
        refine ⟨hhead.symm, htail.symm, ?_⟩
        show s.brk + (HEADER_SIZE + n) - (HEADER_SIZE + n) = s.brk
        omega
      · obtain ⟨t, ht⟩ := lastp
        have hw1 := wf_malloc s hs n true
        have hgrow := malloc_grow_snoc hs hn' hf hmem
        rw [hgrow] at hw1
        rw [hgrow]
        have eF := free_shrink_cons hw1
          (show ((⟨(init ++ [(t, setNextH (some s.brk) ht)]) ++
              [(s.brk, ⟨n, false, none⟩)], s.head, some s.brk,
              s.brk + (HEADER_SIZE + n), s.bytes⟩ : HeapState)).mem =
            (init ++ [(t, setNextH (some s.brk) ht)]) ++
              [(s.brk, ⟨n, false, none⟩)] from rfl)
        rw [eF]
        refine ⟨rfl, ?_, ?_⟩
        · show some t = s.tail
          rw [hs.2.1, hmem, List.getLast?_concat]
          rfl
        · show s.brk + (HEADER_SIZE + n) - (HEADER_SIZE + n) = s.brk
          omega

theorem C4_roundtrip_amended_witness :
    (free (malloc s2 8 true).2 (malloc s2 8 true).1).head = s2.head ∧
    (free (malloc s2 8 true).2 (malloc s2 8 true).1).tail = s2.tail ∧
    (free (malloc s2 8 true).2 (malloc s2 8 true).1).brk = s2.brk :=
  C4_roundtrip_amended s2 8 true wf_s2 (by decide)
    (fun q hq => by
      simp only [s2, List.getLast?_cons_cons, List.getLast?_singleton,
        Option.mem_def, Option.some_inj] at hq
      rw [← hq])

end MemAlloc
